import Mathlib

/-!
Shallow embedding of `src/geometry/epipolar.py` (class `EpipolarGeometry`):
the correspondence matcher `match_features` and the relative pose estimator
`estimate_pose` of the DeepVO repository.

The repository code delegates three numeric primitives to OpenCV
(`cv2.BFMatcher.knnMatch`, `cv2.findEssentialMat`, `cv2.recoverPose`),
whose source is not part of the repository.  Those primitives are modelled
here from the specification: `knnMatch` is implemented concretely (exhaustive
two-nearest-neighbour search under Euclidean distance, spec 4.1), while the
randomized essential-matrix fit and the decomposition/cheirality step are
abstracted as oracle function parameters whose spec-stated contracts appear
as explicit hypotheses of the theorems that need them.  Everything written
in the repository itself (the ratio-test filter, index extraction, the
minimum-sample and shape checks, the mask flattening, the returned tuples)
is embedded directly from the Python source.

Numbers are rationals.  Squared Euclidean distances stand in for the
`NORM_L2` distances of the source: both sides of every comparison made by
the source are nonnegative, so `d < 0.8 * e` on distances is equivalent to
`25 * d2 < 16 * e2` on their squares (0.8^2 = 16/25), which is the form
used here.
-/

namespace DeepVO

/-- A feature descriptor: a vector of rationals (the source uses rows of an
`(N, 256)` float array; the length is not fixed here). -/
abbrev Desc := List ℚ

/-- A 2D pixel coordinate (one row of the source's `(N, 2)` keypoint arrays). -/
abbrev Pt := ℚ × ℚ

/-- Squared Euclidean (`NORM_L2`) distance between two descriptors. -/
def dist2 (a b : Desc) : ℚ :=
  (List.zipWith (fun x y => (x - y) ^ 2) a b).sum

/-- The candidate list a brute-force matcher scores for one query descriptor:
each train index `i + j` paired with its squared distance to the query.
`i` is the index of the head of `ts` in the full train set. -/
def candList (q : Desc) (i : ℕ) : List Desc → List (ℕ × ℚ)
  | [] => []
  | t :: ts => (i, dist2 q t) :: candList q (i + 1) ts

/-- One step of the running-minimum fold over candidates. -/
def minStep (acc : Option (ℕ × ℚ)) (c : ℕ × ℚ) : Option (ℕ × ℚ) :=
  match acc with
  | none => some c
  | some b => if c.2 < b.2 then some c else some b

/-- First minimum of a list of (index, distance) pairs by distance;
on ties the earlier element wins. -/
def minBy (l : List (ℕ × ℚ)) : Option (ℕ × ℚ) :=
  l.foldl minStep none

/-- Modelled from the spec: one row of `cv2.BFMatcher(NORM_L2).knnMatch(desc1,
desc2, k=2)` — the two nearest neighbours of a query descriptor in the train
set under Euclidean distance (spec 4.1: exhaustive search).  When the train
set offers fewer than two neighbours no row with two entries exists and the
query yields nothing (spec 4.1: such queries produce no correspondence). -/
def knn2 (q : Desc) (train : List Desc) : Option ((ℕ × ℚ) × (ℕ × ℚ)) :=
  let cands := candList q 0 train
  (minBy cands).bind fun m =>
    (minBy (cands.filter fun c => decide (c.1 ≠ m.1))).map fun n => (m, n)

/-- One accepted-or-candidate knn row, as unpacked by the source's
`for m, n in knn_matches:` loop: the query index, the best match
(train index, squared distance) and the second-best match. -/
structure KnnPair where
  queryIdx : ℕ
  best : ℕ × ℚ
  second : ℕ × ℚ
  deriving DecidableEq, Repr

instance : Inhabited KnnPair := ⟨⟨0, (0, 0), (0, 0)⟩⟩

/-- The knn rows for the queries `qs`, whose head has index `i` in `desc1`. -/
def knnMatchAux (train : List Desc) (i : ℕ) : List Desc → List KnnPair
  | [] => []
  | q :: qs =>
    match knn2 q train with
    | some (m, n) => ⟨i, m, n⟩ :: knnMatchAux train (i + 1) qs
    | none => knnMatchAux train (i + 1) qs

/-- Modelled from the spec: `bf.knnMatch(desc1, desc2, k=2)` — the two
nearest train neighbours for every query, in query order. -/
def knnMatch (desc1 desc2 : List Desc) : List KnnPair :=
  knnMatchAux desc2 0 desc1

/-- The source's ratio-test filter (`if m.distance < 0.8 * n.distance`),
stated on squared distances: `25 * d2(m) < 16 * d2(n)`. -/
def goodMatches (desc1 desc2 : List Desc) : List KnnPair :=
  (knnMatch desc1 desc2).filter (fun p => decide (25 * p.best.2 < 16 * p.second.2))

/-- The camera intrinsics dictionary passed to `EpipolarGeometry.__init__`. -/
structure Intrinsics where
  fx : ℚ
  fy : ℚ
  cx : ℚ
  cy : ℚ

/-- A 3x3 rational matrix. -/
abbrev Mat3 := Matrix (Fin 3) (Fin 3) ℚ

/-- A 3-vector of rationals. -/
abbrev Vec3 := Fin 3 → ℚ

/-- The object state of the Python class `EpipolarGeometry`: `__init__`
stores only the intrinsic matrix `self.K`, and no method creates any other
attribute. -/
structure EpipolarGeometry where
  K : Mat3

/-- Embeds `EpipolarGeometry.__init__`: builds
`K = [[fx,0,cx],[0,fy,cy],[0,0,1]]`. -/
def EpipolarGeometry.init (c : Intrinsics) : EpipolarGeometry :=
  ⟨Matrix.of ![![c.fx, 0, c.cx], ![0, c.fy, c.cy], ![0, 0, 1]]⟩

/-- Embeds `EpipolarGeometry.match_features`: knn matching, ratio test, and index
extraction (`idx1 = [m.queryIdx ...]`, `idx2 = [m.trainIdx ...]`).  The
method reads nothing from `self`. -/
def EpipolarGeometry.match_features (_g : EpipolarGeometry) (desc1 desc2 : List Desc) :
    List ℕ × List ℕ :=
  let good := goodMatches desc1 desc2
  (good.map (fun m => m.queryIdx), good.map (fun m => m.best.1))

/-- A numpy 2-D array as returned for the essential matrix by
`cv2.findEssentialMat`: a shape plus entries.  The source only inspects the
shape (`E.shape != (3, 3)`); robust fitting can return `None` or a stacked
`3k x 3` matrix of several solutions, so the shape is data here. -/
structure NdMat where
  rows : ℕ
  cols : ℕ
  entries : List (List ℚ)

/-- The pair returned by `cv2.findEssentialMat`: the (possibly absent)
fitted matrix and the per-correspondence inlier mask of the robust fit
(a column of `uint8` flags; nonzero means inlier). -/
structure FindEOut where
  E : Option NdMat
  mask : List ℤ

/-- The type of the `cv2.findEssentialMat` call, abstracted as an oracle:
it receives `points1`, `points2` and `cameraMatrix` (the `USAC_MAGSAC`
method, `prob=0.9999` and `threshold=1.0` arguments of the source select a
randomized algorithm, so any of its admissible outcomes is quantified
over). -/
abbrev FindEFun := List Pt → List Pt → Mat3 → FindEOut

/-- The decomposition-and-cheirality core of `cv2.recoverPose`, abstracted
as an oracle: from the fitted matrix, the points and the intrinsics it
yields the selected rotation, the selected translation direction, and the
per-correspondence positive-depth (cheirality) flags of that candidate
(spec 4.2 steps 3-5). -/
structure DecompOut where
  R : Mat3
  t : Vec3
  posDepth : List Bool

/-- The type of the decomposition oracle inside `cv2.recoverPose`. -/
abbrev DecompFun := NdMat → List Pt → List Pt → Mat3 → DecompOut

/-- What `cv2.recoverPose` returns: the count of mask survivors, `R`, `t`,
and the updated mask. -/
structure RecoverOut where
  good : ℕ
  R : Mat3
  t : Vec3
  mask_pose : List ℤ

/-- Modelled from the spec: `cv2.recoverPose(E, points1, points2,
cameraMatrix, mask)` — decomposes `E` into the four candidate `(R, t)`
pairs, selects the physically valid one by the positive-depth count over
the input-mask inliers, and updates the mask to exactly those input-mask
inliers that pass the positive-depth check under the selected candidate
(spec 4.2 steps 3-6).  The numeric decomposition is the oracle `dec`; the
mask update rule is the contract stated by the spec. -/
def recoverPose (dec : DecompFun) (E : NdMat) (points1 points2 : List Pt)
    (K : Mat3) (mask : List ℤ) : RecoverOut :=
  let o := dec E points1 points2 K
  let m := List.zipWith (fun a p => if a ≠ 0 ∧ p = true then (1 : ℤ) else 0) mask o.posDepth
  ⟨(m.filter (fun v => decide (v ≠ 0))).length, o.R, o.t, m⟩

/-- Embeds `EpipolarGeometry.estimate_pose`: the minimum-sample check on
`len(kpts1)`, the robust fit, the `E is None or E.shape != (3, 3)` check,
pose recovery, and the flattening `inlier_mask = mask_pose.ravel() > 0`.
Failure paths return the source's `(None, None, None)` triple, embedded as
a triple of `none`s (the Python return type is a triple of three optional
values, so a partially populated triple is expressible and ruled out by
theorem, not by the type). -/
def EpipolarGeometry.estimate_pose (g : EpipolarGeometry)
    (findE : FindEFun) (dec : DecompFun) (kpts1 kpts2 : List Pt) :
    Option Mat3 × Option Vec3 × Option (List Bool) :=
  if kpts1.length < 5 then (none, none, none)
  else
    let fr := findE kpts1 kpts2 g.K
    match fr.E with
    | none => (none, none, none)
    | some E =>
      if E.rows = 3 ∧ E.cols = 3 then
        let r := recoverPose dec E kpts1 kpts2 g.K fr.mask
        (some r.R, some r.t, some (r.mask_pose.map (fun v => decide (0 < v))))
      else (none, none, none)

/-- The method `match_features` as a state transformer on the object: the Python
method body contains no assignment to `self`, so the object state after
the call is the object state before it. -/
def EpipolarGeometry.match_featuresS (g : EpipolarGeometry) (desc1 desc2 : List Desc) :
    (List ℕ × List ℕ) × EpipolarGeometry :=
  (g.match_features desc1 desc2, g)

/-- The method `estimate_pose` as a state transformer on the object: the Python method
body reads `self.K` and contains no assignment to `self`. -/
def EpipolarGeometry.estimate_poseS (g : EpipolarGeometry)
    (findE : FindEFun) (dec : DecompFun) (kpts1 kpts2 : List Pt) :
    (Option Mat3 × Option Vec3 × Option (List Bool)) × EpipolarGeometry :=
  (g.estimate_pose findE dec kpts1 kpts2, g)

/-- The matrix is orthonormal with determinant `+1`. -/
def IsRotation (R : Mat3) : Prop :=
  R.transpose * R = 1 ∧ R.det = 1

/-- The vector has unit norm, stated on the square of the norm. -/
def UnitNorm (t : Vec3) : Prop :=
  t 0 * t 0 + t 1 * t 1 + t 2 * t 2 = 1

/-- A concrete object, built with the intrinsics of the source's
verification block. -/
def gW : EpipolarGeometry :=
  EpipolarGeometry.init ⟨800, 800, 320, 240⟩

/-- A concrete essential-matrix-fit outcome used to instantiate the fit
oracle in closed instances of the theorems. -/
def fW : FindEFun :=
  fun _ _ _ => ⟨some ⟨3, 3, [[0, 1, 0], [1, 0, 0], [0, 0, 0]]⟩, [1, 1, 1, 1, 1]⟩

/-- A unit translation direction along the optical axis. -/
def tW : Vec3 := ![0, 0, 1]

/-- A concrete decomposition outcome (identity rotation, unit translation
along the optical axis, one correspondence failing cheirality) used to
instantiate the decomposition oracle in closed instances of the theorems. -/
def dW : DecompFun :=
  fun _ _ _ _ => ⟨1, tW, [true, true, true, true, false]⟩

/-- Five concrete keypoints in the first frame. -/
def p1W : List Pt := [(0, 0), (1, 0), (0, 1), (1, 1), (2, 2)]

/-- Five concrete keypoints in the second frame. -/
def p2W : List Pt := [(0, 0), (2, 0), (0, 2), (2, 2), (4, 4)]

/-- The inlier mask `estimate_pose` yields on the concrete oracles. -/
def mW : List Bool := [true, true, true, true, false]

/-- A one-descriptor query set used in closed instances of the theorems. -/
def d1W : List Desc := [[0]]

/-- A two-descriptor train set used in closed instances of the theorems. -/
def d2W : List Desc := [[0], [5]]

/-- The accepted match the matcher produces on `d1W` and `d2W`. -/
def pW : KnnPair := ⟨0, (0, 0), (1, 25)⟩

theorem foldl_minStep_mem (l : List (ℕ × ℚ)) :
    ∀ (acc : Option (ℕ × ℚ)) (b : ℕ × ℚ),
      l.foldl minStep acc = some b → b ∈ l ∨ acc = some b := by
  induction l with
  | nil => exact fun acc b h => Or.inr h
  | cons c cs ih =>
    intro acc b h
    rw [List.foldl_cons] at h
    rcases ih (minStep acc c) b h with hmem | hacc
    · exact Or.inl (List.mem_cons_of_mem _ hmem)
    · cases acc with
      | none =>
        have hb : c = b := by simpa [minStep] using hacc
        exact Or.inl (hb ▸ List.mem_cons_self c cs)
      | some a =>
        by_cases hlt : c.2 < a.2
        · have hb : c = b := by simpa [minStep, hlt] using hacc
          exact Or.inl (hb ▸ List.mem_cons_self c cs)
        · have hb : some a = some b := by simpa [minStep, hlt] using hacc
          exact Or.inr hb

theorem minBy_mem {l : List (ℕ × ℚ)} {b : ℕ × ℚ} (h : minBy l = some b) : b ∈ l := by
  rcases foldl_minStep_mem l none b h with hm | hb
  · exact hm
  · exact absurd hb (by simp)

theorem candList_mem {q : Desc} :
    ∀ (ts : List Desc) (i : ℕ) (p : ℕ × ℚ), p ∈ candList q i ts →
      ∃ j, j < ts.length ∧ p.1 = i + j ∧ p.2 = dist2 q (ts.getD j []) := by
  intro ts
  induction ts with
  | nil => intro i p h; simp [candList] at h
  | cons t ts ih =>
    intro i p h
    rw [candList] at h
    rcases List.mem_cons.mp h with h0 | h1
    · exact ⟨0, Nat.succ_pos _, by simp [h0]⟩
    · obtain ⟨j, hj, hidx, hd⟩ := ih (i + 1) p h1
      refine ⟨j + 1, Nat.succ_lt_succ hj, by omega, ?_⟩
      simpa using hd

theorem knn2_some {q : Desc} {train : List Desc} {m n : ℕ × ℚ}
    (h : knn2 q train = some (m, n)) :
    m.1 < train.length ∧ m.2 = dist2 q (train.getD m.1 []) ∧
      n.1 < train.length ∧ n.2 = dist2 q (train.getD n.1 []) := by
  simp only [knn2] at h
  cases hm : minBy (candList q 0 train) with
  | none => rw [hm] at h; simp at h
  | some m' =>
    rw [hm] at h
    simp only [Option.some_bind] at h
    cases hn : minBy ((candList q 0 train).filter fun c => decide (c.1 ≠ m'.1)) with
    | none => rw [hn] at h; simp at h
    | some n' =>
      rw [hn] at h
      simp at h
      obtain ⟨hm', hn'⟩ := h
      subst hm'
      subst hn'
      obtain ⟨j, hj, e1, e2⟩ := candList_mem train 0 m' (minBy_mem hm)
      obtain ⟨j', hj', e1', e2'⟩ :=
        candList_mem train 0 n' (List.mem_of_mem_filter (minBy_mem hn))
      have hj0 : m'.1 = j := by omega
      have hj0' : n'.1 = j' := by omega
      refine ⟨by omega, ?_, by omega, ?_⟩
      · rw [hj0]; exact e2
      · rw [hj0']; exact e2'

theorem knnMatchAux_mem {train : List Desc} :
    ∀ (qs : List Desc) (i : ℕ) (p : KnnPair), p ∈ knnMatchAux train i qs →
      ∃ j, j < qs.length ∧ p.queryIdx = i + j ∧
        knn2 (qs.getD j []) train = some (p.best, p.second) := by
  intro qs
  induction qs with
  | nil => intro i p h; simp [knnMatchAux] at h
  | cons q qs ih =>
    intro i p h
    rw [knnMatchAux] at h
    cases hk : knn2 q train with
    | none =>
      rw [hk] at h
      obtain ⟨j, hj, hidx, hknn⟩ := ih (i + 1) p h
      refine ⟨j + 1, Nat.succ_lt_succ hj, by omega, ?_⟩
      simpa using hknn
    | some mn =>
      obtain ⟨m, n⟩ := mn
      rw [hk] at h
      rcases List.mem_cons.mp h with h0 | h1
      · refine ⟨0, Nat.succ_pos _, by simp [h0], ?_⟩
        simpa [h0] using hk
      · obtain ⟨j, hj, hidx, hknn⟩ := ih (i + 1) p h1
        refine ⟨j + 1, Nat.succ_lt_succ hj, by omega, ?_⟩
        simpa using hknn

theorem knnMatchAux_pairwise {train : List Desc} :
    ∀ (qs : List Desc) (i : ℕ),
      List.Pairwise (fun a b : KnnPair => a.queryIdx < b.queryIdx)
        (knnMatchAux train i qs) := by
  intro qs
  induction qs with
  | nil => intro i; simp [knnMatchAux]
  | cons q qs ih =>
    intro i
    rw [knnMatchAux]
    cases hk : knn2 q train with
    | none => exact ih (i + 1)
    | some mn =>
      obtain ⟨m, n⟩ := mn
      refine List.Pairwise.cons ?_ (ih (i + 1))
      intro p hp
      obtain ⟨j, hj, hidx, hknn⟩ := knnMatchAux_mem qs (i + 1) p hp
      simp only [hidx]
      omega

theorem knn2_short {q : Desc} {train : List Desc} (h : train.length < 2) :
    knn2 q train = none := by
  match train, h with
  | [], _ => rfl
  | [t], _ => rfl

theorem knnMatchAux_short {train : List Desc} (h : train.length < 2) :
    ∀ (qs : List Desc) (i : ℕ), knnMatchAux train i qs = [] := by
  intro qs
  induction qs with
  | nil => intro i; rfl
  | cons q qs ih =>
    intro i
    rw [knnMatchAux, knn2_short h]
    exact ih (i + 1)

theorem getD_map_proj {α β : Type} (f : α → β) (d : α) :
    ∀ (l : List α) (k : ℕ), (l.map f).getD k (f d) = f (l.getD k d) := by
  intro l
  induction l with
  | nil => intro k; simp
  | cons a l ih =>
    intro k
    cases k with
    | zero => simp
    | succ k => simp [ih k]

/-- C3: every correspondence accepted by the ratio-test filter of
`match_features` satisfies `distance(nearest) < 0.8 * distance(secondNearest)`
on the true descriptor distances (stated on squared distances,
`25 * d2 < 16 * e2`), where the nearest and second-nearest neighbours are
those found by the knn search; and the matcher's output is exactly the
projection of the accepted-match list, so no output entry violates the
ratio bound. -/
theorem match_ratio_bound (g : EpipolarGeometry) (desc1 desc2 : List Desc)
    (p : KnnPair) (hp : p ∈ goodMatches desc1 desc2) :
    g.match_features desc1 desc2 =
      ((goodMatches desc1 desc2).map fun m => m.queryIdx,
        (goodMatches desc1 desc2).map fun m => m.best.1) ∧
    25 * dist2 (desc1.getD p.queryIdx []) (desc2.getD p.best.1 []) <
      16 * dist2 (desc1.getD p.queryIdx []) (desc2.getD p.second.1 []) := by
  refine ⟨rfl, ?_⟩
  have hmem : p ∈ knnMatch desc1 desc2 := List.mem_of_mem_filter hp
  have hratio : 25 * p.best.2 < 16 * p.second.2 := by
    simpa using List.of_mem_filter hp
  obtain ⟨j, hj, hidx, hknn⟩ := knnMatchAux_mem desc1 0 p hmem
  obtain ⟨hb1, hb2, hn1, hn2⟩ := knn2_some hknn
  rw [show p.queryIdx = j from by omega, ← hb2, ← hn2]
  exact hratio

/-- Closed instance of `match_ratio_bound` at a concrete input. -/
theorem match_ratio_bound_witness :
    pW ∈ goodMatches d1W d2W ∧
    (gW.match_features d1W d2W =
        ((goodMatches d1W d2W).map fun m => m.queryIdx,
          (goodMatches d1W d2W).map fun m => m.best.1) ∧
      25 * dist2 (d1W.getD pW.queryIdx []) (d2W.getD pW.best.1 []) <
        16 * dist2 (d1W.getD pW.queryIdx []) (d2W.getD pW.second.1 [])) :=
  ⟨by with_unfolding_all decide,
    match_ratio_bound gW d1W d2W pW (by with_unfolding_all decide)⟩

/-- C4: with fewer than 2 descriptors in `desc2` (and `desc1` non-empty),
`match_features` returns two empty index arrays rather than failing: no
query can be validated by the two-neighbour ratio test. -/
theorem match_empty_train (g : EpipolarGeometry) (desc1 desc2 : List Desc)
    (_h1 : desc1 ≠ []) (h2 : desc2.length < 2) :
    g.match_features desc1 desc2 = ([], []) := by
  have hgood : goodMatches desc1 desc2 = [] := by
    unfold goodMatches knnMatch
    rw [knnMatchAux_short h2]
    rfl
  simp [EpipolarGeometry.match_features, hgood]

/-- Closed instance of `match_empty_train` at a concrete input. -/
theorem match_empty_train_witness :
    d1W ≠ [] ∧ ([] : List Desc).length < 2 ∧
    gW.match_features d1W [] = ([], []) :=
  ⟨by with_unfolding_all decide, by decide,
    match_empty_train gW d1W [] (by with_unfolding_all decide) (by decide)⟩

/-- C8: the matcher's output lists accepted correspondences in query
order (the query indices are strictly increasing), and no cross-check or
deduplication is applied on the `desc2` side: on a concrete input two
accepted correspondences claim the same `desc2` index 0. -/
theorem match_order_no_crosscheck :
    (∀ (g : EpipolarGeometry) (desc1 desc2 : List Desc),
        List.Pairwise (fun a b : ℕ => a < b) (g.match_features desc1 desc2).1) ∧
    gW.match_features [[0], [0]] [[0], [5]] = ([0, 1], [0, 0]) := by
  constructor
  · intro g desc1 desc2
    have hpw := @knnMatchAux_pairwise desc2 desc1 0
    have hflt : List.Pairwise (fun a b : KnnPair => a.queryIdx < b.queryIdx)
        (goodMatches desc1 desc2) := List.Pairwise.filter _ hpw
    exact List.pairwise_map.mpr hflt
  · with_unfolding_all decide

/-- C10: the two index arrays returned by `match_features` have equal
length, and at every position `k` they carry the query index and the train
index of the same (the `k`-th) accepted match. -/
theorem match_parallel_indices (g : EpipolarGeometry) (desc1 desc2 : List Desc) :
    (g.match_features desc1 desc2).1.length =
      (g.match_features desc1 desc2).2.length ∧
    ∀ k : ℕ,
      (g.match_features desc1 desc2).1.getD k 0 =
        ((goodMatches desc1 desc2).getD k default).queryIdx ∧
      (g.match_features desc1 desc2).2.getD k 0 =
        ((goodMatches desc1 desc2).getD k default).best.1 := by
  refine ⟨by simp [EpipolarGeometry.match_features], fun k => ⟨?_, ?_⟩⟩
  · exact getD_map_proj (fun m : KnnPair => m.queryIdx) default
      (goodMatches desc1 desc2) k
  · exact getD_map_proj (fun m : KnnPair => m.best.1) default
      (goodMatches desc1 desc2) k

theorem recoverPose_R (dec : DecompFun) (E : NdMat) (p1 p2 : List Pt)
    (K : Mat3) (mask : List ℤ) :
    (recoverPose dec E p1 p2 K mask).R = (dec E p1 p2 K).R := rfl

theorem recoverPose_t (dec : DecompFun) (E : NdMat) (p1 p2 : List Pt)
    (K : Mat3) (mask : List ℤ) :
    (recoverPose dec E p1 p2 K mask).t = (dec E p1 p2 K).t := rfl

theorem recoverPose_mask (dec : DecompFun) (E : NdMat) (p1 p2 : List Pt)
    (K : Mat3) (mask : List ℤ) :
    (recoverPose dec E p1 p2 K mask).mask_pose =
      List.zipWith (fun a p => if a ≠ 0 ∧ p = true then (1 : ℤ) else 0)
        mask (dec E p1 p2 K).posDepth := rfl

/-- C1: with fewer than 5 keypoints in `kpts1`, `estimate_pose` returns the
explicit no-estimate triple `(none, none, none)`; the result is the same
for every fit and decomposition oracle, so no essential-matrix fit is
attempted. -/
theorem estimate_pose_min_correspondences (g : EpipolarGeometry)
    (findE : FindEFun) (dec : DecompFun) (kpts1 kpts2 : List Pt)
    (h : kpts1.length < 5) :
    g.estimate_pose findE dec kpts1 kpts2 = (none, none, none) := by
  simp [EpipolarGeometry.estimate_pose, h]

/-- Closed instance of `estimate_pose_min_correspondences`. -/
theorem estimate_pose_min_correspondences_witness :
    ([((0 : ℚ), (0 : ℚ))] : List Pt).length < 5 ∧
    gW.estimate_pose fW dW [((0 : ℚ), (0 : ℚ))] [] = (none, none, none) :=
  ⟨by decide,
    estimate_pose_min_correspondences gW fW dW [((0 : ℚ), (0 : ℚ))] [] (by decide)⟩

/-- C2: on every successful call (one returning a full triple), whenever
the decomposition step yields rotations and unit-norm translation
directions -- as the spec states for the essential-matrix decomposition --
the returned `R` is orthonormal with determinant one and the returned `t`
has unit norm. -/
theorem estimate_pose_rotation_unit (g : EpipolarGeometry) (findE : FindEFun)
    (dec : DecompFun) (kpts1 kpts2 : List Pt) (R : Mat3) (t : Vec3)
    (m : List Bool)
    (hdec : ∀ (E : NdMat) (q1 q2 : List Pt) (K : Mat3),
      IsRotation (dec E q1 q2 K).R ∧ UnitNorm (dec E q1 q2 K).t)
    (h : g.estimate_pose findE dec kpts1 kpts2 = (some R, some t, some m)) :
    IsRotation R ∧ UnitNorm t := by
  simp only [EpipolarGeometry.estimate_pose] at h
  split at h
  · simp at h
  · split at h
    · simp at h
    next E hE =>
      split at h
      next hsh =>
        simp only [recoverPose_R, recoverPose_t, Prod.mk.injEq,
          Option.some.injEq] at h
        obtain ⟨hR, ht, hm⟩ := h
        subst hR
        subst ht
        exact hdec E kpts1 kpts2 g.K
      next hsh => simp at h

/-- Closed instance of `estimate_pose_rotation_unit`. -/
theorem estimate_pose_rotation_unit_witness :
    (∀ (E : NdMat) (q1 q2 : List Pt) (K : Mat3),
        IsRotation (dW E q1 q2 K).R ∧ UnitNorm (dW E q1 q2 K).t) ∧
      (IsRotation (1 : Mat3) ∧ UnitNorm tW) :=
  have hdec : ∀ (E : NdMat) (q1 q2 : List Pt) (K : Mat3),
      IsRotation (dW E q1 q2 K).R ∧ UnitNorm (dW E q1 q2 K).t := by
    intro E q1 q2 K
    refine ⟨⟨by simp [dW], by simp [dW]⟩, ?_⟩
    show UnitNorm tW
    simp [UnitNorm, tW]
  ⟨hdec, estimate_pose_rotation_unit gW fW dW p1W p2W 1 tW mW hdec
    (by with_unfolding_all rfl)⟩

/-- C5: on every successful call, provided the fit mask and the cheirality
flags are parallel to the input correspondences (as the spec states for
the robust fit and the depth test), the returned inlier mask has length
exactly the number of input correspondences. -/
theorem inlier_mask_length (g : EpipolarGeometry) (findE : FindEFun)
    (dec : DecompFun) (kpts1 kpts2 : List Pt) (R : Mat3) (t : Vec3)
    (m : List Bool)
    (hmask : (findE kpts1 kpts2 g.K).mask.length = kpts1.length)
    (hdepth : ∀ E : NdMat, (dec E kpts1 kpts2 g.K).posDepth.length = kpts1.length)
    (h : g.estimate_pose findE dec kpts1 kpts2 = (some R, some t, some m)) :
    m.length = kpts1.length := by
  simp only [EpipolarGeometry.estimate_pose] at h
  split at h
  · simp at h
  · split at h
    · simp at h
    next E hE =>
      split at h
      next hsh =>
        simp only [Prod.mk.injEq, Option.some.injEq] at h
        obtain ⟨hR, ht, hm⟩ := h
        subst hm
        simp [recoverPose_mask, List.length_zipWith, hmask, hdepth E]
      next hsh => simp at h

/-- Closed instance of `inlier_mask_length`. -/
theorem inlier_mask_length_witness :
    (fW p1W p2W gW.K).mask.length = p1W.length ∧ mW.length = p1W.length :=
  ⟨by with_unfolding_all rfl,
    inlier_mask_length gW fW dW p1W p2W 1 tW mW (by with_unfolding_all rfl)
      (fun _ => by with_unfolding_all rfl) (by with_unfolding_all rfl)⟩

theorem zip_mask_getD :
    ∀ (a : List ℤ) (p : List Bool) (k : ℕ), k < a.length → k < p.length →
      (((List.zipWith (fun x q => if x ≠ 0 ∧ q = true then (1 : ℤ) else 0) a p).map
            fun v => decide (0 < v)).getD k false = true ↔
        (a.getD k 0 ≠ 0 ∧ p.getD k false = true)) := by
  intro a
  induction a with
  | nil => intro p k h1 h2; exact absurd h1 (by simp)
  | cons x xs ih =>
    intro p k h1 h2
    cases p with
    | nil => exact absurd h2 (by simp)
    | cons q qs =>
      cases k with
      | zero =>
        simp only [List.zipWith_cons_cons, List.map_cons, List.getD_cons_zero]
        by_cases hc : x ≠ 0 ∧ q = true
        · simp [hc]
        · simp [hc]
      | succ k =>
        simp only [List.zipWith_cons_cons, List.map_cons, List.getD_cons_succ]
        exact ih qs k (by simpa using h1) (by simpa using h2)

/-- C7: on every successful call, the returned inlier mask marks position
`k` exactly when correspondence `k` was an inlier of the robust
essential-matrix fit AND passes the positive-depth (cheirality) test of
the selected candidate; in particular it is at least as strict as the fit
mask. -/
theorem inlier_mask_refinement (g : EpipolarGeometry) (findE : FindEFun)
    (dec : DecompFun) (kpts1 kpts2 : List Pt) (R : Mat3) (t : Vec3)
    (m : List Bool) (E : NdMat)
    (hE : (findE kpts1 kpts2 g.K).E = some E)
    (hmask : (findE kpts1 kpts2 g.K).mask.length = kpts1.length)
    (hdepth : (dec E kpts1 kpts2 g.K).posDepth.length = kpts1.length)
    (h : g.estimate_pose findE dec kpts1 kpts2 = (some R, some t, some m))
    (k : ℕ) (hk : k < kpts1.length) :
    (m.getD k false = true ↔
      ((findE kpts1 kpts2 g.K).mask.getD k 0 ≠ 0 ∧
        (dec E kpts1 kpts2 g.K).posDepth.getD k false = true)) := by
  simp only [EpipolarGeometry.estimate_pose] at h
  split at h
  · simp at h
  · split at h
    · simp at h
    next E' hE' =>
      rw [hE] at hE'
      obtain rfl : E' = E := (Option.some.inj hE').symm
      split at h
      next hsh =>
        simp only [Prod.mk.injEq, Option.some.injEq] at h
        obtain ⟨hR, ht, hm⟩ := h
        subst hm
        rw [recoverPose_mask]
        exact zip_mask_getD _ _ k (by omega) (by omega)
      next hsh => simp at h

/-- Closed instance of `inlier_mask_refinement`. -/
theorem inlier_mask_refinement_witness :
    (fW p1W p2W gW.K).E = some ⟨3, 3, [[0, 1, 0], [1, 0, 0], [0, 0, 0]]⟩ ∧
    (4 < p1W.length) ∧
    (mW.getD 4 false = true ↔
      ((fW p1W p2W gW.K).mask.getD 4 0 ≠ 0 ∧
        (dW ⟨3, 3, [[0, 1, 0], [1, 0, 0], [0, 0, 0]]⟩ p1W p2W gW.K).posDepth.getD 4
            false = true)) :=
  ⟨by with_unfolding_all rfl, by decide,
    inlier_mask_refinement gW fW dW p1W p2W 1 tW mW
      ⟨3, 3, [[0, 1, 0], [1, 0, 0], [0, 0, 0]]⟩ (by with_unfolding_all rfl)
      (by with_unfolding_all rfl) (by with_unfolding_all rfl)
      (by with_unfolding_all rfl) 4 (by decide)⟩

/-- C6: `estimate_pose` always returns, and returns either the explicit
no-result triple (exactly on its stated failure conditions: fewer than 5
correspondences, or a fit that yields no matrix or a matrix that is not
3x3) or a fully populated `(R, t, mask)` triple; a partially populated
triple never occurs. -/
theorem estimate_pose_total (g : EpipolarGeometry) (findE : FindEFun)
    (dec : DecompFun) (kpts1 kpts2 : List Pt) :
    (g.estimate_pose findE dec kpts1 kpts2 = (none, none, none) ∧
        (kpts1.length < 5 ∨ (findE kpts1 kpts2 g.K).E = none ∨
          ∃ E, (findE kpts1 kpts2 g.K).E = some E ∧
            ¬(E.rows = 3 ∧ E.cols = 3))) ∨
      ∃ R t m, g.estimate_pose findE dec kpts1 kpts2 = (some R, some t, some m) ∧
        5 ≤ kpts1.length ∧
        ∃ E, (findE kpts1 kpts2 g.K).E = some E ∧ E.rows = 3 ∧ E.cols = 3 := by
  by_cases h5 : kpts1.length < 5
  · exact Or.inl ⟨by simp [EpipolarGeometry.estimate_pose, h5], Or.inl h5⟩
  · cases hE : (findE kpts1 kpts2 g.K).E with
    | none =>
      refine Or.inl ⟨?_, Or.inr (Or.inl rfl)⟩
      simp [EpipolarGeometry.estimate_pose, h5, hE]
    | some E =>
      by_cases hsh : E.rows = 3 ∧ E.cols = 3
      · refine Or.inr
          ⟨(recoverPose dec E kpts1 kpts2 g.K (findE kpts1 kpts2 g.K).mask).R,
            (recoverPose dec E kpts1 kpts2 g.K (findE kpts1 kpts2 g.K).mask).t,
            ((recoverPose dec E kpts1 kpts2 g.K
                (findE kpts1 kpts2 g.K).mask).mask_pose.map fun v => decide (0 < v)),
            ?_, by omega, E, rfl, hsh⟩
        simp [EpipolarGeometry.estimate_pose, h5, hE, hsh]
      · refine Or.inl ⟨?_, Or.inr (Or.inr ⟨E, rfl, hsh⟩)⟩
        simp [EpipolarGeometry.estimate_pose, h5, hE, hsh]

/-- C9: the intrinsic matrix is built once by initialization from the four
scalars `fx, fy, cx, cy`, and the two methods leave the object state --
whose only field is `K` -- unchanged: the state after every call equals
the state before it, and no other per-instance state exists. -/
theorem intrinsics_immutable :
    (∀ c : Intrinsics,
        (EpipolarGeometry.init c).K =
          Matrix.of ![![c.fx, 0, c.cx], ![0, c.fy, c.cy], ![0, 0, 1]]) ∧
      (∀ (g : EpipolarGeometry) (desc1 desc2 : List Desc),
        (g.match_featuresS desc1 desc2).2 = g) ∧
      (∀ (g : EpipolarGeometry) (findE : FindEFun) (dec : DecompFun)
          (kpts1 kpts2 : List Pt),
        (g.estimate_poseS findE dec kpts1 kpts2).2 = g) :=
  ⟨fun _ => rfl, fun _ _ _ => rfl, fun _ _ _ _ _ => rfl⟩

end DeepVO
